import Mathlib

/-!
Verification development for the mun code-generation backend
(crates/mun_codegen), focused on the dispatch-table builder
(ir/dispatch_table.rs, ir/file_group.rs), the type-table builder
(ir/type_table.rs), the struct-layout cache (context.rs, ir/adt.rs,
ir/ty.rs) and wrapper generation (ir/file.rs, ir/function.rs).

Modelling conventions:
* hir entities (functions, structs) are represented by their ids (Nat);
  the immutable, queryable program representation required by the input
  contract is a `HirDb` structure of total query functions.
* LLVM handles (opaque struct types, global values) are represented by
  allocation ids threaded through an explicit context state, so
  reference identity of a native handle is equality of its id.
* Rust `BTreeMap`/`BTreeSet` are modelled as sorted lists with
  ordered insertion; `HashMap` as an association list with
  replace-on-collision insertion and first-match lookup.
* String ordering is modelled on the underlying character list
  (byte-lexicographic for ASCII names, as in Rust).
-/

/-- Semantic value types that can occur in function signatures and struct
fields (ty.rs matches on Float/Int/Bool/Struct type constructors;
function-definition and unit types never occur in these positions per the
input contract — they reach dedicated branches or are invariant
violations). Integer bitness is kept already resolved against the target
layout. -/
inductive Ty where
  | bool
  | int (signed : Bool) (bits : Nat)
  | float (bits : Nat)
  | structTy (s : Nat)
deriving DecidableEq, Repr

/-- Memory kind of a struct: inline by value, or heap allocated and
garbage collected (hir::StructMemoryKind). -/
inductive StructMemoryKind where
  | value
  | gc
deriving DecidableEq, Repr

/-- Group tag of a runtime type descriptor: fundamental type or struct
type (type_info.rs is not under src/; groups per spec section 3). -/
inductive TypeGroup where
  | fundamental
  | structGroup (s : Nat)
deriving DecidableEq, Repr

/-- Modelled from the spec: type_info.rs is not under src/. Per spec
section 3 a TypeInfo is (guid, name, size, alignment, group) where the
guid is a content hash of the shape, so identity, which the spec states
is guid plus shape, coincides with structural equality of the remaining
fields; the guid field is therefore left out of the model. -/
structure TypeInfo where
  name : String
  sizeBits : Nat
  align : Nat
  group : TypeGroup
deriving DecidableEq, Repr

/-- Numeric key for a TypeGroup, used for the deterministic ordering. -/
def TypeGroup.key : TypeGroup → Nat × Nat
  | .fundamental => (0, 0)
  | .structGroup s => (1, s)

theorem typeGroupKey_inj : Function.Injective TypeGroup.key := by
  intro a b h
  cases a <;> cases b <;> simp_all [TypeGroup.key, Prod.ext_iff]

/-- Lexicographic key of a TypeInfo. Modelled from the spec: the concrete
Ord instance lives in the missing type_info.rs; the spec only requires a
deterministic (lexicographic) total order compatible with structural
identity. -/
def TypeInfo.key (t : TypeInfo) : Lex (List Char × Lex (Nat × Lex (Nat × Lex (Nat × Nat)))) :=
  toLex (t.name.data, toLex (t.sizeBits, toLex (t.align, toLex t.group.key)))

theorem typeInfoKey_inj : Function.Injective TypeInfo.key := by
  intro a b h
  have h' := congrArg ofLex h
  simp only [TypeInfo.key, ofLex_toLex, Prod.mk.injEq] at h'
  obtain ⟨h1, h2⟩ := h'
  have h2' := congrArg ofLex h2
  simp only [ofLex_toLex, Prod.mk.injEq] at h2'
  obtain ⟨h3, h4⟩ := h2'
  have h4' := congrArg ofLex h4
  simp only [ofLex_toLex, Prod.mk.injEq] at h4'
  obtain ⟨h5, h6⟩ := h4'
  have h6' := congrArg ofLex h6
  cases a; cases b
  simp_all [String.ext_iff, typeGroupKey_inj.eq_iff]

instance : LinearOrder TypeInfo := LinearOrder.lift' TypeInfo.key typeInfoKey_inj

/-- Unique signature that can be added to the dispatch table
(dispatch_table.rs, FunctionPrototype). -/
structure FunctionPrototype where
  name : String
  argTypes : List TypeInfo
  retType : Option TypeInfo
deriving DecidableEq, Repr

/-- Lexicographic key of a prototype, mirroring the derived Ord on
FunctionPrototype (field order: name, arg_types, ret_type; None sorts
before Some, which the empty-list-before-singleton list order realizes). -/
def FunctionPrototype.key (p : FunctionPrototype) :
    Lex (List Char × Lex (List TypeInfo × List TypeInfo)) :=
  toLex (p.name.data, toLex (p.argTypes, p.retType.toList))

theorem Option.toList_inj {α : Type} : Function.Injective (Option.toList (α := α)) := by
  intro a b h
  cases a <;> cases b <;> simp_all [Option.toList]

theorem protoKey_inj : Function.Injective FunctionPrototype.key := by
  intro a b h
  have h' := congrArg ofLex h
  simp only [FunctionPrototype.key, ofLex_toLex, Prod.mk.injEq] at h'
  obtain ⟨h1, h2⟩ := h'
  have h2' := congrArg ofLex h2
  simp only [ofLex_toLex, Prod.mk.injEq] at h2'
  cases a; cases b
  simp_all [String.ext_iff, Option.toList_inj.eq_iff]

instance : LinearOrder FunctionPrototype :=
  LinearOrder.lift' FunctionPrototype.key protoKey_inj

/-- Target of a call expression after type inference: the callee resolves
either to a user function or to a struct constructor (the None branch of
as_callable_def is an invariant violation that never leaves the type
checker, per the input contract). -/
inductive CallTarget where
  | function (f : Nat)
  | structCtor (s : Nat)
deriving DecidableEq, Repr

mutual
/-- Body expression tree (hir::Expr as consumed by collect_expr in
dispatch_table.rs and ir/intrinsics.rs: call expressions with resolved
callees, record literals, paths resolving to struct values, and a
generic composite for every other expression kind whose children are
walked by walk_child_exprs). -/
inductive Expr where
  | call (callee : CallTarget) (args : ExprList)
  | recordLit (s : Nat) (args : ExprList)
  | structPath (s : Nat)
  | lit
  | block (stmts : ExprList)

/-- Child list of an expression (hir stores children as a vector). -/
inductive ExprList where
  | nil
  | cons (head : Expr) (tail : ExprList)
end

/-- Function signature as returned by callable_sig: parameter types and
return type, none meaning the empty/unit return type (sig.ret().is_empty()). -/
structure FnSig where
  params : List Ty
  ret : Option Ty
deriving DecidableEq, Repr

/-- Module-level definition (hir::ModuleDef). -/
inductive ModuleDef where
  | function (f : Nat)
  | structDef (s : Nat)
  | builtin
deriving DecidableEq, Repr

/-- Immutable queryable program representation for one file (the input
contract of spec section 6): per-function name, visibility, externness,
signature and body; per-struct name, memory kind and ordered fields; the
ordered module-level definition list; and the memoized native size and
alignment of each struct layout. -/
structure HirDb where
  funcName : Nat → String
  funcExternal : Nat → Bool
  funcPrivate : Nat → Bool
  funcSig : Nat → FnSig
  funcBody : Nat → Expr
  structName : Nat → String
  structKind : Nat → StructMemoryKind
  structFields : Nat → List (String × Ty)
  structSizeAlign : Nat → Nat × Nat
  defs : List ModuleDef

/-- Runtime type descriptor of a semantic type (TypeManager::type_info in
ir/ty.rs: fundamental descriptors for float/int/bool named by the
resolved bitness, struct descriptors carrying the struct reference; the
size and alignment of a struct come from its native layout). -/
def typeInfo (db : HirDb) : Ty → TypeInfo
  | .bool => { name := "core::bool", sizeBits := 1, align := 1, group := .fundamental }
  | .int signed bits =>
      { name := "core::" ++ (if signed then "i" else "u") ++ toString bits,
        sizeBits := bits, align := bits, group := .fundamental }
  | .float bits =>
      { name := "core::f" ++ toString bits,
        sizeBits := bits, align := bits, group := .fundamental }
  | .structTy s =>
      { name := db.structName s,
        sizeBits := (db.structSizeAlign s).1,
        align := (db.structSizeAlign s).2,
        group := .structGroup s }

/-- Full prototype of a user function recorded by collect_fn_def in
dispatch_table.rs: name, resolved argument TypeInfos, optional resolved
return TypeInfo. -/
def protoOf (db : HirDb) (f : Nat) : FunctionPrototype :=
  { name := db.funcName f,
    argTypes := (db.funcSig f).params.map (typeInfo db),
    retType := (db.funcSig f).ret.map (typeInfo db) }

/-- Association-list lookup with structural key equality (models
HashMap::get). -/
def alookup {α β : Type} [DecidableEq α] (k : α) : List (α × β) → Option β
  | [] => none
  | (k₂, v) :: rest => if k₂ = k then some v else alookup k rest

/-- Association-list insertion replacing the value of an existing key
(models HashMap::insert). -/
def ainsert {α β : Type} [DecidableEq α] (k : α) (v : β) : List (α × β) → List (α × β)
  | [] => [(k, v)]
  | (k₂, v₂) :: rest => if k₂ = k then (k, v) :: rest else (k₂, v₂) :: ainsert k v rest

theorem alookup_ainsert_self {α β : Type} [DecidableEq α] (k : α) (v : β)
    (l : List (α × β)) : alookup k (ainsert k v l) = some v := by
  induction l with
  | nil => simp [ainsert, alookup]
  | cons kv rest ih =>
    obtain ⟨k₂, v₂⟩ := kv
    by_cases h : k₂ = k <;> simp [ainsert, alookup, h, ih]

theorem alookup_ainsert_ne {α β : Type} [DecidableEq α] (k k₀ : α) (v : β)
    (l : List (α × β)) (h : k₀ ≠ k) : alookup k₀ (ainsert k v l) = alookup k₀ l := by
  induction l with
  | nil =>
    have h₂ : ¬(k = k₀) := fun h₃ => h h₃.symm
    simp [ainsert, alookup, h₂]
  | cons kv rest ih =>
    obtain ⟨k₂, v₂⟩ := kv
    by_cases h₂ : k₂ = k
    · subst h₂
      have h₃ : ¬(k₂ = k₀) := fun h₄ => h h₄.symm
      simp [ainsert, alookup, h₃]
    · by_cases h₃ : k₂ = k₀
      · subst h₃
        simp [ainsert, alookup, h₂, h]
      · simp [ainsert, alookup, h₂, h₃, ih]

theorem alookup_none_iff {α β : Type} [DecidableEq α] (k : α) (l : List (α × β)) :
    alookup k l = none ↔ k ∉ l.map Prod.fst := by
  induction l with
  | nil => simp [alookup]
  | cons kv rest ih =>
    obtain ⟨k₂, v₂⟩ := kv
    by_cases h : k₂ = k
    · subst h
      simp [alookup]
    · have h₂ : ¬(k = k₂) := fun h₃ => h h₃.symm
      simp [alookup, h, h₂, ih]

theorem alookup_isSome_iff {α β : Type} [DecidableEq α] (k : α) (l : List (α × β)) :
    (alookup k l).isSome ↔ k ∈ l.map Prod.fst := by
  rcases h : alookup k l with _ | v
  · simpa [Option.isSome] using (alookup_none_iff k l).mp h
  · simp only [Option.isSome, true_iff]
    by_contra hmem
    rw [(alookup_none_iff k l).mpr hmem] at h
    exact Option.noConfusion h

theorem ainsert_keys_of_not_mem {α β : Type} [DecidableEq α] (k : α) (v : β)
    (l : List (α × β)) (h : k ∉ l.map Prod.fst) :
    (ainsert k v l).map Prod.fst = l.map Prod.fst ++ [k] := by
  induction l with
  | nil => simp [ainsert]
  | cons kv rest ih =>
    obtain ⟨k₂, v₂⟩ := kv
    simp only [List.map_cons, List.mem_cons] at h
    push_neg at h
    have h₂ : ¬(k₂ = k) := fun h₃ => h.1 h₃.symm
    simp [ainsert, h₂, ih h.2]

/-- Modelled from the spec: FnSig::marshallable lives in the hir crate,
which is not under src/. Per spec sections 4.1, 4.6 and 8 a signature is
trivially marshallable (callable across the ABI boundary without
transformation) iff no parameter or return type is a Value-kind struct:
fundamental types pass unchanged and GC-kind structs already cross the
boundary as a pointer indirection, while Value-kind structs switch to the
pointer-indirection representation when marshalled. -/
def tyMarshallable (db : HirDb) : Ty → Bool
  | .structTy s => match db.structKind s with
    | .gc => true
    | .value => false
  | _ => true

/-- Modelled from the spec (see tyMarshallable): a callable signature is
marshallable iff all its parameter types and its return type are. -/
def marshallable (db : HirDb) (sig : FnSig) : Bool :=
  sig.params.all (tyMarshallable db) &&
    (match sig.ret with
     | none => true
     | some t => tyMarshallable db t)

/-- Modelled from the spec: the intrinsics declaration module
(crate::intrinsics) is not under src/. The only intrinsic collected by
ir/intrinsics.rs is the generic allocation intrinsic new; its precise
argument and return TypeInfos are runtime pointer types that are not
expressible in surface programs, so they are left empty here. -/
def newProto : FunctionPrototype :=
  { name := "new", argTypes := [], retType := none }

/-- Ordered-map insertion that keeps an existing key (models
BTreeMap::entry().or_insert_with() in ir/intrinsics.rs; the value, an
LLVM function type, plays no role in the claims and is dropped). -/
def intrInsert (p : FunctionPrototype) (m : List FunctionPrototype) : List FunctionPrototype :=
  if p ∈ m then m else List.orderedInsert (· ≤ ·) p m

mutual
/-- Intrinsics discovery walk over one expression (collect_expr in
ir/intrinsics.rs): a call whose callee resolves to a struct, a record
literal, and a path resolving to a struct each require the allocation
intrinsic; every other expression only has its children walked. -/
def intrExpr (m : List FunctionPrototype) : Expr → List FunctionPrototype
  | .call (.function _) args => intrArgs m args
  | .call (.structCtor _) args => intrArgs (intrInsert newProto m) args
  | .recordLit _ args => intrArgs (intrInsert newProto m) args
  | .structPath _ => intrInsert newProto m
  | .lit => m
  | .block stmts => intrArgs m stmts

/-- Intrinsics discovery walk over an expression list. -/
def intrArgs (m : List FunctionPrototype) : ExprList → List FunctionPrototype
  | .nil => m
  | .cons e es => intrArgs (intrExpr m e) es
end

/-- Intrinsics map of a file group (first definitions loop of ir_query in
ir/file_group.rs): for every non-extern function, collect_fn_body walks
the body, and collect_wrapper_body adds the allocation intrinsic when the
function is exposed and its signature is not marshallable. -/
def intrinsicsList (db : HirDb) : List FunctionPrototype :=
  db.defs.foldl
    (fun m d =>
      match d with
      | .function f =>
        if db.funcExternal f then m
        else
          let m := intrExpr m (db.funcBody f)
          if !(db.funcPrivate f) && !(marshallable db (db.funcSig f)) then intrInsert newProto m
          else m
      | .structDef _ => m
      | .builtin => m)
    []

/-- Entry of the dispatch table: a prototype that may point to an
existing hir function (DispatchableFunction in dispatch_table.rs; a none
origin denotes a compiler intrinsic). -/
structure DispatchEntry where
  proto : FunctionPrototype
  hir : Option Nat
deriving DecidableEq, Repr

/-- State of DispatchTableBuilder (dispatch_table.rs): ordered entries,
the function-to-slot and prototype-to-slot maps, and whether the global
dispatch table value has been created in the module (table_ref). -/
structure DTB where
  entries : List DispatchEntry
  protoToIdx : List (FunctionPrototype × Nat)
  funcToIdx : List (Nat × Nat)
  hasTable : Bool
deriving Repr

/-- DispatchTableBuilder::new: seed the builder with the intrinsic
prototypes in the deterministic iteration order of the intrinsics
BTreeMap, creating the global table value iff there is at least one
intrinsic. -/
def DTB.new (intr : List FunctionPrototype) : DTB :=
  { entries := intr.map (fun p => { proto := p, hir := none }),
    protoToIdx := intr.enum.map (fun pair => (pair.2, pair.1)),
    funcToIdx := [],
    hasTable := !intr.isEmpty }

/-- DispatchTableBuilder::collect_fn_def: ensure the global table value
exists, then, if the called function is not yet in the table, append an
entry with its full prototype and record its slot in both maps. -/
def DTB.collectFnDef (db : HirDb) (b : DTB) (f : Nat) : DTB :=
  let b := { b with hasTable := true }
  if (alookup f b.funcToIdx).isSome then b
  else
    let p := protoOf db f
    let idx := b.entries.length
    { b with
      entries := b.entries ++ [{ proto := p, hir := some f }],
      protoToIdx := ainsert p idx b.protoToIdx,
      funcToIdx := ainsert f idx b.funcToIdx }

mutual
/-- DispatchTableBuilder::collect_expr: register a call whose callee
resolves to a user function, skip struct-constructor calls, and recurse
through all child expressions. -/
def DTB.collectExpr (db : HirDb) (b : DTB) : Expr → DTB
  | .call (.function f) args => DTB.collectArgs db (DTB.collectFnDef db b f) args
  | .call (.structCtor _) args => DTB.collectArgs db b args
  | .recordLit _ args => DTB.collectArgs db b args
  | .structPath _ => b
  | .lit => b
  | .block stmts => DTB.collectArgs db b stmts

/-- Recursion of collect_expr through a child-expression list. -/
def DTB.collectArgs (db : HirDb) (b : DTB) : ExprList → DTB
  | .nil => b
  | .cons e es => DTB.collectArgs db (DTB.collectExpr db b e) es
end

/-- DispatchTableBuilder::collect_body: collect all call expressions of a
body starting from its root expression. -/
def DTB.collectBody (db : HirDb) (b : DTB) (f : Nat) : DTB :=
  DTB.collectExpr db b (db.funcBody f)

/-- Initializer value of one dispatch-table slot (built by
DispatchTableBuilder::build): a typed null pointer or the address of a
generated function. -/
inductive SlotInit where
  | null
  | addrOf (name : String)
deriving DecidableEq, Repr

/-- Native name produced by gen_signature in ir/function.rs: the
function's own name, or the name with suffix _wrapper when generating the
marshallable wrapper signature. -/
def genSignatureName (db : HirDb) (f : Nat) (makeMarshallable : Bool) : String :=
  if makeMarshallable then db.funcName f ++ "_wrapper" else db.funcName f

/-- Initializer of one entry in DispatchTableBuilder::build: intrinsic
entries (no hir function) and extern functions get a typed null pointer,
to be patched by the runtime; any other function gets the address of its
already-generated native signature (gen_signature with
make_marshallable false). -/
def slotInit (db : HirDb) (e : DispatchEntry) : SlotInit :=
  match e.hir with
  | none => .null
  | some f => if db.funcExternal f then .null else .addrOf (genSignatureName db f false)

/-- Built dispatch table (DispatchTable in dispatch_table.rs): the
entries, both slot maps, whether the global value exists, and the global
initializer (present iff the global table value was created). -/
structure DispatchTable where
  entries : List DispatchEntry
  protoToIdx : List (FunctionPrototype × Nat)
  funcToIdx : List (Nat × Nat)
  hasTable : Bool
  init : Option (List SlotInit)
deriving Repr

/-- DispatchTableBuilder::build: set the struct body of the table type,
and, if the global table value exists, set its initializer from the
entries in slot order. -/
def DTB.build (db : HirDb) (b : DTB) : DispatchTable :=
  { entries := b.entries,
    protoToIdx := b.protoToIdx,
    funcToIdx := b.funcToIdx,
    hasTable := b.hasTable,
    init := if b.hasTable then some (b.entries.map (slotInit db)) else none }

/-- DispatchTable::contains: whether the table has a slot for the given
function. -/
def DispatchTable.containsFn (dt : DispatchTable) (f : Nat) : Bool :=
  (alookup f dt.funcToIdx).isSome

/-- Code emitted by gen_function_lookup_by_index: a struct-gep at the
slot index followed by a load, named after the function. -/
structure LoadInst where
  slot : Nat
  fnName : String
deriving DecidableEq, Repr

/-- DispatchTable::gen_function_lookup: look up the function's slot
(panicking when absent, modelled as none), require the materialized
global table reference (panicking when absent), and emit the indexed
load. -/
def DispatchTable.genFunctionLookup (dt : DispatchTable) (db : HirDb) (tableRef : Bool)
    (f : Nat) : Option LoadInst :=
  match alookup f dt.funcToIdx with
  | none => none
  | some i => if tableRef then some { slot := i, fnName := db.funcName f } else none

/-- DispatchTable::gen_intrinsic_lookup: look up the intrinsic's
prototype slot (panicking when absent), require the global table
reference, and emit the indexed load. -/
def DispatchTable.genIntrinsicLookup (dt : DispatchTable) (tableRef : Bool)
    (p : FunctionPrototype) : Option LoadInst :=
  match alookup p dt.protoToIdx with
  | none => none
  | some i => if tableRef then some { slot := i, fnName := p.name } else none

/-- Functions whose bodies the dispatch-table collection loop walks
(second definitions loop of ir_query in ir/file_group.rs): module
functions that are neither private nor extern, in definition order. -/
def exposedFns (db : HirDb) : List Nat :=
  db.defs.filterMap
    (fun d =>
      match d with
      | .function f =>
        if !(db.funcPrivate f) && !(db.funcExternal f) then some f else none
      | _ => none)

/-- Dispatch table of a file group (ir_query in ir/file_group.rs):
seed a builder with the intrinsics map, collect every exposed function's
body in definition order, and build. -/
def dispatchTableOf (db : HirDb) : DispatchTable :=
  DTB.build db ((exposedFns db).foldl (DTB.collectBody db) (DTB.new (intrinsicsList db)))

/-!
Helper development: the traversal trace of user-function call sites, the
first-discovery deduplication, and the correspondence between the
builder's state transitions and these pure list functions.
-/

mutual
/-- Trace of user-function callees met by the collect_expr traversal of
one expression, in traversal order. -/
def callsE : Expr → List Nat
  | .call (.function f) args => f :: callsA args
  | .call (.structCtor _) args => callsA args
  | .recordLit _ args => callsA args
  | .structPath _ => []
  | .lit => []
  | .block stmts => callsA stmts

/-- Trace of user-function callees of an expression list. -/
def callsA : ExprList → List Nat
  | .nil => []
  | .cons e es => callsE e ++ callsA es
end

mutual
theorem collectExpr_eq_fold (db : HirDb) (b : DTB) (e : Expr) :
    DTB.collectExpr db b e = (callsE e).foldl (DTB.collectFnDef db) b := by
  cases e with
  | call c args =>
    cases c with
    | function f =>
      simp only [DTB.collectExpr, callsE, List.foldl_cons]
      exact collectArgs_eq_fold db (DTB.collectFnDef db b f) args
    | structCtor s =>
      simp only [DTB.collectExpr, callsE]
      exact collectArgs_eq_fold db b args
  | recordLit s args =>
    simp only [DTB.collectExpr, callsE]
    exact collectArgs_eq_fold db b args
  | structPath s => rfl
  | lit => rfl
  | block stmts =>
    simp only [DTB.collectExpr, callsE]
    exact collectArgs_eq_fold db b stmts

theorem collectArgs_eq_fold (db : HirDb) (b : DTB) (es : ExprList) :
    DTB.collectArgs db b es = (callsA es).foldl (DTB.collectFnDef db) b := by
  cases es with
  | nil => rfl
  | cons e tail =>
    simp only [DTB.collectArgs, callsA, List.foldl_append]
    rw [collectExpr_eq_fold db b e]
    exact collectArgs_eq_fold db ((callsE e).foldl (DTB.collectFnDef db) b) tail
end

/-- First-discovery deduplication: keep the first occurrence of every id
not already seen. -/
def dedupFirst (seen : List Nat) : List Nat → List Nat
  | [] => []
  | f :: fs => if f ∈ seen then dedupFirst seen fs else f :: dedupFirst (f :: seen) fs

theorem dedupFirst_congr (s₁ s₂ : List Nat) (l : List Nat)
    (h : ∀ x, x ∈ s₁ ↔ x ∈ s₂) : dedupFirst s₁ l = dedupFirst s₂ l := by
  induction l generalizing s₁ s₂ with
  | nil => rfl
  | cons f fs ih =>
    by_cases hf : f ∈ s₁
    · simp [dedupFirst, hf, (h f).mp hf, ih s₁ s₂ h]
    · have hf₂ : f ∉ s₂ := fun hx => hf ((h f).mpr hx)
      simp only [dedupFirst, if_neg hf, if_neg hf₂]
      refine congrArg (List.cons f) (ih _ _ ?_)
      intro x
      simp [h x]

/-- Characterization of collect_fn_def when the function already has a
slot: only the table-reference flag is touched. -/
theorem collectFnDef_mem (db : HirDb) (b : DTB) (f : Nat)
    (h : f ∈ b.funcToIdx.map Prod.fst) :
    DTB.collectFnDef db b f = { b with hasTable := true } := by
  have h₂ : (alookup f b.funcToIdx).isSome := (alookup_isSome_iff f b.funcToIdx).mpr h
  simp [DTB.collectFnDef, h₂]

/-- Characterization of collect_fn_def when the function is new: an entry
is appended and both maps gain its slot. -/
theorem collectFnDef_not_mem (db : HirDb) (b : DTB) (f : Nat)
    (h : f ∉ b.funcToIdx.map Prod.fst) :
    DTB.collectFnDef db b f =
      { entries := b.entries ++ [{ proto := protoOf db f, hir := some f }],
        protoToIdx := ainsert (protoOf db f) b.entries.length b.protoToIdx,
        funcToIdx := ainsert f b.entries.length b.funcToIdx,
        hasTable := true } := by
  have h₂ : ¬(alookup f b.funcToIdx).isSome := by
    simp [alookup_isSome_iff, h]
  simp [DTB.collectFnDef, h₂]

/-- Master lemma on a run of collect_fn_def steps: entries grow by the
first-discovery dedup of the processed call trace, the key list of the
function-to-slot map grows in step, and the table reference exists as
soon as one call was processed. -/
theorem foldCalls_spec (db : HirDb) (cs : List Nat) (b : DTB) :
    (cs.foldl (DTB.collectFnDef db) b).entries =
        b.entries ++ (dedupFirst (b.funcToIdx.map Prod.fst) cs).map
          (fun f => { proto := protoOf db f, hir := some f })
    ∧ (cs.foldl (DTB.collectFnDef db) b).funcToIdx.map Prod.fst =
        b.funcToIdx.map Prod.fst ++ dedupFirst (b.funcToIdx.map Prod.fst) cs
    ∧ (cs.foldl (DTB.collectFnDef db) b).hasTable = (b.hasTable || !cs.isEmpty) := by
  induction cs generalizing b with
  | nil => simp [dedupFirst]
  | cons f fs ih =>
    by_cases hf : f ∈ b.funcToIdx.map Prod.fst
    · have hstep := collectFnDef_mem db b f hf
      obtain ⟨ih1, ih2, ih3⟩ := ih ({ b with hasTable := true })
      refine ⟨?_, ?_, ?_⟩
      · simpa [hstep, dedupFirst, hf] using ih1
      · simpa [hstep, dedupFirst, hf] using ih2
      · simp [hstep, ih3, dedupFirst, hf]
    · have hstep := collectFnDef_not_mem db b f hf
      obtain ⟨ih1, ih2, ih3⟩ :=
        ih { entries := b.entries ++ [{ proto := protoOf db f, hir := some f }],
             protoToIdx := ainsert (protoOf db f) b.entries.length b.protoToIdx,
             funcToIdx := ainsert f b.entries.length b.funcToIdx,
             hasTable := true }
      have hkeys : (ainsert f b.entries.length b.funcToIdx).map Prod.fst =
          b.funcToIdx.map Prod.fst ++ [f] :=
        ainsert_keys_of_not_mem f b.entries.length b.funcToIdx hf
      have hdedup : dedupFirst ((ainsert f b.entries.length b.funcToIdx).map Prod.fst) fs =
          dedupFirst (f :: b.funcToIdx.map Prod.fst) fs := by
        refine dedupFirst_congr _ _ fs ?_
        intro x
        simp [hkeys, or_comm]
      refine ⟨?_, ?_, ?_⟩
      · rw [List.foldl_cons, hstep, ih1]
        simp only at ih1 ⊢
        rw [hdedup]
        simp [dedupFirst, hf]
      · rw [List.foldl_cons, hstep, ih2]
        simp only at ih2 ⊢
        rw [hdedup, hkeys]
        simp [dedupFirst, hf]
      · rw [List.foldl_cons, hstep, ih3]
        simp [dedupFirst, hf]

/-- Concatenated call trace of all bodies walked by the collection loop,
in definition order. -/
def allCalls (db : HirDb) : List Nat :=
  (exposedFns db).flatMap (fun f => callsE (db.funcBody f))

/-- User functions in first-discovery order of the deterministic
traversal. -/
def firstCalls (db : HirDb) : List Nat :=
  dedupFirst [] (allCalls db)

theorem pipeline_eq_fold (db : HirDb) (fns : List Nat) (b : DTB) :
    fns.foldl (DTB.collectBody db) b =
      (fns.flatMap (fun f => callsE (db.funcBody f))).foldl (DTB.collectFnDef db) b := by
  induction fns generalizing b with
  | nil => simp
  | cons f fs ih =>
    simp only [List.foldl_cons, List.flatMap_cons, List.foldl_append]
    rw [← ih, DTB.collectBody, collectExpr_eq_fold]

/-- Sorted-and-duplicate-free invariant of the modelled BTreeMap key
list. -/
def SortedND (m : List FunctionPrototype) : Prop :=
  m.Sorted (· ≤ ·) ∧ m.Nodup

theorem intrInsert_sortedND (p : FunctionPrototype) (m : List FunctionPrototype)
    (h : SortedND m) : SortedND (intrInsert p m) := by
  unfold intrInsert
  by_cases hp : p ∈ m
  · simpa [hp] using h
  · rw [if_neg hp]
    refine ⟨h.1.orderedInsert p m, ?_⟩
    rw [(List.perm_orderedInsert _ p m).nodup_iff]
    simp [h.2, hp]

mutual
theorem intrExpr_sortedND (m : List FunctionPrototype) (e : Expr)
    (h : SortedND m) : SortedND (intrExpr m e) := by
  cases e with
  | call c args =>
    cases c with
    | function f => exact intrArgs_sortedND m args h
    | structCtor s => exact intrArgs_sortedND _ args (intrInsert_sortedND newProto m h)
  | recordLit s args => exact intrArgs_sortedND _ args (intrInsert_sortedND newProto m h)
  | structPath s => exact intrInsert_sortedND newProto m h
  | lit => exact h
  | block stmts => exact intrArgs_sortedND m stmts h

theorem intrArgs_sortedND (m : List FunctionPrototype) (es : ExprList)
    (h : SortedND m) : SortedND (intrArgs m es) := by
  cases es with
  | nil => exact h
  | cons e tail => exact intrArgs_sortedND (intrExpr m e) tail (intrExpr_sortedND m e h)
end

theorem foldl_invariant {α β : Type} (P : α → Prop) (step : α → β → α) (l : List β)
    (init : α) (h0 : P init) (hstep : ∀ a b, P a → P (step a b)) :
    P (l.foldl step init) := by
  induction l generalizing init with
  | nil => exact h0
  | cons x xs ih => exact ih (step init x) (hstep init x h0)

/-- Sortedness of the intrinsics map of a file group: the BTreeMap model
keeps its key list sorted and duplicate free under every insertion that
the intrinsics discovery performs. -/
theorem intrinsicsList_sortedND (db : HirDb) : SortedND (intrinsicsList db) := by
  unfold intrinsicsList
  refine foldl_invariant SortedND _ db.defs [] ⟨List.sorted_nil, List.nodup_nil⟩ ?_
  intro m d hm
  cases d with
  | function f =>
    by_cases hext : db.funcExternal f
    · simpa [hext] using hm
    · have h₁ := intrExpr_sortedND m (db.funcBody f) hm
      by_cases hw : !(db.funcPrivate f) && !(marshallable db (db.funcSig f))
      · simpa [hext, hw] using intrInsert_sortedND newProto _ h₁
      · simpa [hext, hw] using h₁
  | structDef s => exact hm
  | builtin => exact hm

theorem collectFnDef_hasTable (db : HirDb) (b : DTB) (f : Nat) :
    (DTB.collectFnDef db b f).hasTable = true := by
  unfold DTB.collectFnDef
  by_cases h : (alookup f b.funcToIdx).isSome <;> simp [h]

/-- Every map of the pipeline-built dispatch table is empty unless the
global table value was created: a nonempty slot map implies table_ref. -/
theorem dispatchTableOf_hasTable_of_maps (db : HirDb) :
    ((dispatchTableOf db).protoToIdx ≠ [] ∨ (dispatchTableOf db).funcToIdx ≠ []) →
      (dispatchTableOf db).hasTable = true := by
  unfold dispatchTableOf DTB.build
  simp only
  refine foldl_invariant
    (fun b : DTB => (b.protoToIdx ≠ [] ∨ b.funcToIdx ≠ []) → b.hasTable = true)
    (DTB.collectBody db) (exposedFns db) (DTB.new (intrinsicsList db)) ?_ ?_
  · intro h
    rcases h with h | h
    · unfold DTB.new at h ⊢
      simp only at h ⊢
      rcases hintr : intrinsicsList db with _ | ⟨p, ps⟩
      · rw [hintr] at h
        simp at h
      · simp [hintr]
    · unfold DTB.new at h
      simp at h
  · intro b f hb
    rw [DTB.collectBody, collectExpr_eq_fold]
    rcases hcs : callsE (db.funcBody f) with _ | ⟨c, cs⟩
    · exact hb
    · intro h₂
      have h₃ := (foldCalls_spec db (c :: cs) b).2.2
      simpa using h₃

/-- Membership of an exposed function in the collection loop's list. -/
theorem mem_exposedFns (db : HirDb) (f : Nat) (hdef : ModuleDef.function f ∈ db.defs)
    (hpriv : db.funcPrivate f = false) (hext : db.funcExternal f = false) :
    f ∈ exposedFns db := by
  unfold exposedFns
  rw [List.mem_filterMap]
  exact ⟨ModuleDef.function f, hdef, by simp [hpriv, hext]⟩

theorem mem_dedupFirst (seen l : List Nat) (x : Nat) (hx : x ∈ l) (hs : x ∉ seen) :
    x ∈ dedupFirst seen l := by
  induction l generalizing seen with
  | nil => cases hx
  | cons f fs ih =>
    by_cases hfm : f ∈ seen
    · rcases List.mem_cons.mp hx with rfl | hx₂
      · exact absurd hfm hs
      · simpa [dedupFirst, hfm] using ih seen hx₂ hs
    · by_cases hxf : x = f
      · simp [dedupFirst, hfm, hxf]
      · rcases List.mem_cons.mp hx with rfl | hx₂
        · exact absurd rfl hxf
        · have hs₂ : x ∉ f :: seen := by simp [hxf, hs]
          simp only [dedupFirst, if_neg hfm, List.mem_cons]
          exact Or.inr (ih (f :: seen) hx₂ hs₂)

/-- Keys of the function-to-slot map of the pipeline-built table: the
first-discovery dedup of the full call trace. -/
theorem dispatchTableOf_funcKeys (db : HirDb) :
    (dispatchTableOf db).funcToIdx.map Prod.fst = firstCalls db := by
  unfold dispatchTableOf DTB.build firstCalls
  simp only
  rw [pipeline_eq_fold]
  have h := (foldCalls_spec db (allCalls db) (DTB.new (intrinsicsList db))).2.1
  unfold allCalls at h ⊢
  simpa [DTB.new] using h

/-- C1: for every compilation of a file group, the dispatch-table entries
are exactly the intrinsic prototypes in ascending sorted prototype order
(the deterministic iteration order of the sorted intrinsics map) followed
by the user functions in first-discovery order of the deterministic
body traversal; rebuilding from the identical input yields the identical
table, entry order and slot indices included (the build is a pure
function of the input database). -/
theorem dispatch_table_order_deterministic (db : HirDb) :
    (dispatchTableOf db).entries =
      (intrinsicsList db).map (fun p => { proto := p, hir := none })
        ++ (firstCalls db).map (fun f => { proto := protoOf db f, hir := some f })
    ∧ (intrinsicsList db).Sorted (· ≤ ·)
    ∧ dispatchTableOf db = dispatchTableOf db := by
  refine ⟨?_, (intrinsicsList_sortedND db).1, rfl⟩
  unfold dispatchTableOf DTB.build firstCalls
  simp only
  rw [pipeline_eq_fold]
  have h := (foldCalls_spec db (allCalls db) (DTB.new (intrinsicsList db))).1
  unfold allCalls at h ⊢
  simpa [DTB.new] using h

/-- C2 (amended): for every externally visible (non-private) non-extern
function of the file, and every call expression anywhere in its body
whose callee resolves to a user-defined function, the built dispatch
table contains an entry for that callee. The original claim says every
non-extern function; the collection loop of ir_query in file_group.rs
only walks functions that are also not private. -/
theorem exposed_calls_have_dispatch_entry (db : HirDb) (f g : Nat)
    (hdef : ModuleDef.function f ∈ db.defs)
    (hpriv : db.funcPrivate f = false)
    (hext : db.funcExternal f = false)
    (hcall : g ∈ callsE (db.funcBody f)) :
    (dispatchTableOf db).containsFn g = true := by
  have hf : f ∈ exposedFns db := mem_exposedFns db f hdef hpriv hext
  have hg : g ∈ allCalls db := by
    unfold allCalls
    exact List.mem_flatMap.mpr ⟨f, hf, hcall⟩
  have hmem : g ∈ firstCalls db := mem_dedupFirst [] (allCalls db) g hg (by simp)
  unfold DispatchTable.containsFn
  refine (alookup_isSome_iff g (dispatchTableOf db).funcToIdx).mpr ?_
  rw [dispatchTableOf_funcKeys]
  exact hmem

/-- Example database with a private function: the private non-extern
function 0 (body: a call to function 1) and the public non-extern
function 1 (body: a literal). -/
def dbPrivCall : HirDb :=
  { funcName := fun f => if f = 0 then "caller" else "callee",
    funcExternal := fun _ => false,
    funcPrivate := fun f => f == 0,
    funcSig := fun _ => { params := [], ret := none },
    funcBody := fun f => if f = 0 then .call (.function 1) .nil else .lit,
    structName := fun _ => "",
    structKind := fun _ => .value,
    structFields := fun _ => [],
    structSizeAlign := fun _ => (0, 0),
    defs := [.function 0, .function 1] }

/-- C2 counterexample: function 0 of dbPrivCall is non-extern and its
body contains a call whose callee resolves to the user-defined function
1, yet the built dispatch table has no entry for function 1 — the
collection loop skipped function 0 because it is private, refuting the
claim for every non-extern function. -/
theorem private_call_missing_from_dispatch :
    dbPrivCall.funcExternal 0 = false
    ∧ 1 ∈ callsE (dbPrivCall.funcBody 0)
    ∧ (dispatchTableOf dbPrivCall).containsFn 1 = false := by
  refine ⟨rfl, by decide, by decide⟩

/-- Example database: the public non-extern function 0 (main) calls the
extern function 1 (one) and the non-extern public function 2 (two). -/
def dbMain : HirDb :=
  { funcName := fun f => if f = 0 then "main" else if f = 1 then "one" else "two",
    funcExternal := fun f => f == 1,
    funcPrivate := fun _ => false,
    funcSig := fun _ => { params := [], ret := none },
    funcBody := fun f =>
      if f = 0 then
        .block (.cons (.call (.function 1) .nil) (.cons (.call (.function 2) .nil) .nil))
      else .lit,
    structName := fun _ => "",
    structKind := fun _ => .value,
    structFields := fun _ => [],
    structSizeAlign := fun _ => (0, 0),
    defs := [.function 0, .function 1, .function 2] }

/-- C2 witness: in dbMain, the exposed non-extern function 0 calls the
user function 2, and the built dispatch table contains it. -/
theorem exposed_calls_have_dispatch_entry_witness :
    ModuleDef.function 0 ∈ dbMain.defs
    ∧ dbMain.funcPrivate 0 = false
    ∧ dbMain.funcExternal 0 = false
    ∧ 2 ∈ callsE (dbMain.funcBody 0)
    ∧ (dispatchTableOf dbMain).containsFn 2 = true :=
  ⟨by decide, rfl, rfl, by decide,
    exposed_calls_have_dispatch_entry dbMain 0 2 (by decide) rfl rfl (by decide)⟩

/-- C3: in the built dispatch table's global initializer, a slot is null
iff its entry has no originating function (an intrinsic) or its
originating function is extern; every other slot holds the address of
the already-generated native signature of its non-extern user function
(gen_signature with make_marshallable false, i.e. the function's own
native name). -/
theorem dispatch_init_null_iff (db : HirDb) (inits : List SlotInit)
    (hinit : (dispatchTableOf db).init = some inits) :
    inits.length = (dispatchTableOf db).entries.length
    ∧ ∀ (i : Nat) (e : DispatchEntry), (dispatchTableOf db).entries[i]? = some e →
        inits[i]? = some (slotInit db e)
        ∧ (slotInit db e = SlotInit.null ↔
            (e.hir = none ∨ ∃ f, e.hir = some f ∧ db.funcExternal f = true))
        ∧ ∀ f, e.hir = some f → db.funcExternal f = false →
            slotInit db e = SlotInit.addrOf (genSignatureName db f false) := by
  have hinits : inits = (dispatchTableOf db).entries.map (slotInit db) := by
    unfold dispatchTableOf DTB.build at hinit ⊢
    simp only at hinit ⊢
    by_cases h : (List.foldl (DTB.collectBody db) (DTB.new (intrinsicsList db))
        (exposedFns db)).hasTable
    · rw [if_pos h] at hinit
      exact (Option.some.injEq _ _ ▸ hinit.symm : _)
    · rw [if_neg h] at hinit
      exact Option.noConfusion hinit
  subst hinits
  refine ⟨by simp, ?_⟩
  intro i e he
  refine ⟨?_, ?_, ?_⟩
  · rw [List.getElem?_map, he]
    rfl
  · rcases hh : e.hir with _ | f
    · simp [slotInit, hh]
    · by_cases hx : db.funcExternal f
      · simp [slotInit, hh, hx]
      · simp [slotInit, hh, hx]
  · intro f hf hx
    simp [slotInit, hf, hx]

/-- C3 witness: in dbMain the initializer exists; the extern callee's
slot is null and the non-extern callee's slot holds its generated
signature address; the initializer has one value per entry. -/
theorem dispatch_init_null_iff_witness :
    (dispatchTableOf dbMain).init = some [SlotInit.null, SlotInit.addrOf "two"]
    ∧ [SlotInit.null, SlotInit.addrOf "two"].length
        = (dispatchTableOf dbMain).entries.length :=
  ⟨by decide, (dispatch_init_null_iff dbMain _ (by decide)).1⟩

/-- C9: lookups on the pipeline-built dispatch table are total exactly on
registered slots: gen_function_lookup aborts (none) iff the function has
no slot in the function-to-index map, gen_intrinsic_lookup aborts iff
the prototype has no slot, and on any registered function or prototype
the lookup emits the indexed load of the pointer at that slot (the global
table reference exists whenever any slot was registered, because
collect_fn_def materializes it before inserting). -/
theorem dispatch_lookup_total_on_registered (db : HirDb) :
    (∀ f, ((dispatchTableOf db).genFunctionLookup db (dispatchTableOf db).hasTable f = none
        ↔ alookup f (dispatchTableOf db).funcToIdx = none))
    ∧ (∀ f i, alookup f (dispatchTableOf db).funcToIdx = some i →
        (dispatchTableOf db).genFunctionLookup db (dispatchTableOf db).hasTable f
          = some { slot := i, fnName := db.funcName f })
    ∧ (∀ p, ((dispatchTableOf db).genIntrinsicLookup (dispatchTableOf db).hasTable p = none
        ↔ alookup p (dispatchTableOf db).protoToIdx = none))
    ∧ (∀ p i, alookup p (dispatchTableOf db).protoToIdx = some i →
        (dispatchTableOf db).genIntrinsicLookup (dispatchTableOf db).hasTable p
          = some { slot := i, fnName := p.name }) := by
  have hft : ∀ f i, alookup f (dispatchTableOf db).funcToIdx = some i →
      (dispatchTableOf db).hasTable = true := by
    intro f i h
    refine dispatchTableOf_hasTable_of_maps db (Or.inr ?_)
    intro hempty
    rw [hempty] at h
    simp [alookup] at h
  have hpt : ∀ p i, alookup p (dispatchTableOf db).protoToIdx = some i →
      (dispatchTableOf db).hasTable = true := by
    intro p i h
    refine dispatchTableOf_hasTable_of_maps db (Or.inl ?_)
    intro hempty
    rw [hempty] at h
    simp [alookup] at h
  refine ⟨?_, ?_, ?_, ?_⟩
  · intro f
    unfold DispatchTable.genFunctionLookup
    rcases hl : alookup f (dispatchTableOf db).funcToIdx with _ | i
    · simp
    · simp [hft f i hl]
  · intro f i h
    unfold DispatchTable.genFunctionLookup
    rw [h, hft f i h]
    simp
  · intro p
    unfold DispatchTable.genIntrinsicLookup
    rcases hl : alookup p (dispatchTableOf db).protoToIdx with _ | i
    · simp
    · simp [hpt p i hl]
  · intro p i h
    unfold DispatchTable.genIntrinsicLookup
    rw [h, hpt p i h]
    simp

/-!
Helper lemmas for the index-consistency invariant: option-valued list
indexing across append, and lookups over the seeded enumeration.
-/

theorem getElem?_append_l {α : Type} (l₁ l₂ : List α) (i : Nat) (h : i < l₁.length) :
    (l₁ ++ l₂)[i]? = l₁[i]? := by
  induction l₁ generalizing i with
  | nil => cases h
  | cons x xs ih =>
    cases i with
    | zero => simp
    | succ j =>
      simp only [List.cons_append, List.getElem?_cons_succ]
      exact ih j (Nat.lt_of_succ_lt_succ h)

theorem getElem?_concat_self {α : Type} (l : List α) (x : α) :
    (l ++ [x])[l.length]? = some x := by
  induction l with
  | nil => rfl
  | cons y ys ih => simp [ih]

theorem getElem?_some_lt {α : Type} (l : List α) (i : Nat) (x : α) (h : l[i]? = some x) :
    i < l.length := by
  by_contra hc
  rw [List.getElem?_eq_none (Nat.le_of_not_lt hc)] at h
  exact Option.noConfusion h

theorem getElem?_some_mem {α : Type} (l : List α) (i : Nat) (x : α) (h : l[i]? = some x) :
    x ∈ l := by
  induction l generalizing i with
  | nil => cases i <;> exact Option.noConfusion h
  | cons y ys ih =>
    cases i with
    | zero =>
      simp only [List.getElem?_cons_zero, Option.some.injEq] at h
      simp [h]
    | succ j =>
      simp only [List.getElem?_cons_succ] at h
      exact List.mem_cons_of_mem y (ih j h)

theorem alookup_enumFrom (l : List FunctionPrototype) (hnd : l.Nodup) (n i : Nat)
    (p : FunctionPrototype) (hp : l[i]? = some p) :
    alookup p ((List.enumFrom n l).map (fun pair => (pair.2, pair.1))) = some (n + i) := by
  induction l generalizing n i with
  | nil => cases i <;> exact Option.noConfusion hp
  | cons q qs ih =>
    cases i with
    | zero =>
      simp only [List.getElem?_cons_zero, Option.some.injEq] at hp
      subst hp
      simp [List.enumFrom, alookup]
    | succ j =>
      simp only [List.getElem?_cons_succ] at hp
      have hqp : ¬(q = p) := by
        intro hq
        exact (List.nodup_cons.mp hnd).1 (hq ▸ getElem?_some_mem qs j p hp)
      have := ih (List.nodup_cons.mp hnd).2 (n + 1) j hp
      simp only [List.enumFrom, List.map_cons, alookup, if_neg hqp]
      rw [this]
      exact congrArg some (by omega)

theorem alookup_enumFrom_inv (l : List FunctionPrototype) (n i : Nat) (p : FunctionPrototype)
    (h : alookup p ((List.enumFrom n l).map (fun pair => (pair.2, pair.1))) = some i) :
    ∃ j, l[j]? = some p ∧ i = n + j := by
  induction l generalizing n i with
  | nil => exact Option.noConfusion h
  | cons q qs ih =>
    simp only [List.enumFrom, List.map_cons, alookup] at h
    by_cases hq : q = p
    · subst hq
      rw [if_pos rfl] at h
      refine ⟨0, by simp, ?_⟩
      have : n = i := Option.some.inj h
      omega
    · rw [if_neg hq] at h
      obtain ⟨j, hj, hi⟩ := ih (n + 1) i h
      exact ⟨j + 1, by simpa using hj, by omega⟩

/-- Index-consistency invariant of a dispatch-table builder state: every
entry's prototype maps back to its own slot, every entry's originating
function maps back to its own slot, and every index stored in either map
points below the number of entries at a matching entry. -/
def DTInv (b : DTB) : Prop :=
  (∀ (i : Nat) (e : DispatchEntry), b.entries[i]? = some e →
      alookup e.proto b.protoToIdx = some i
      ∧ ∀ f, e.hir = some f → alookup f b.funcToIdx = some i)
  ∧ (∀ (p : FunctionPrototype) (i : Nat), alookup p b.protoToIdx = some i →
      ∃ e, b.entries[i]? = some e ∧ e.proto = p)
  ∧ (∀ (f i : Nat), alookup f b.funcToIdx = some i →
      ∃ e, b.entries[i]? = some e ∧ e.hir = some f)

/-- Well-formedness of a builder state relative to the seeded intrinsics:
the index-consistency invariant plus provenance of every entry's
prototype (an intrinsic prototype for intrinsic entries, the recorded
function's own prototype for user entries). -/
def DTWf (db : HirDb) (intr : List FunctionPrototype) (b : DTB) : Prop :=
  DTInv b ∧ ∀ (i : Nat) (e : DispatchEntry), b.entries[i]? = some e →
    (e.hir = none → e.proto ∈ intr) ∧ (∀ f, e.hir = some f → e.proto = protoOf db f)

/-- Seeding establishes well-formedness: DispatchTableBuilder::new over a
duplicate-free intrinsics map. -/
theorem new_wf (db : HirDb) (intr : List FunctionPrototype) (hnd : intr.Nodup) :
    DTWf db intr (DTB.new intr) := by
  have hentry : ∀ (i : Nat) (e : DispatchEntry),
      (DTB.new intr).entries[i]? = some e ↔ intr[i]? = some e.proto ∧ e.hir = none := by
    intro i e
    simp only [DTB.new, List.getElem?_map]
    rcases h : intr[i]? with _ | p
    · simp [h]
    · cases e with
      | mk pr hr =>
        constructor
        · intro he
          have he₂ : ({ proto := p, hir := none } : DispatchEntry)
              = { proto := pr, hir := hr } := by
            simpa using he
          have h₁ := congrArg DispatchEntry.proto he₂
          have h₂ := congrArg DispatchEntry.hir he₂
          simp only at h₁ h₂
          simp [h₁, h₂.symm]
        · intro ⟨hp, hh⟩
          have hp₂ : p = pr := by simpa using hp
          simp only at hh
          simp [hp₂, hh]
  refine ⟨⟨?_, ?_, ?_⟩, ?_⟩
  · intro i e he
    obtain ⟨hp, hh⟩ := (hentry i e).mp he
    refine ⟨?_, ?_⟩
    · have := alookup_enumFrom intr hnd 0 i e.proto hp
      simpa [DTB.new, List.enum] using this
    · intro f hf
      rw [hh] at hf
      exact Option.noConfusion hf
  · intro p i hl
    simp only [DTB.new, List.enum] at hl
    obtain ⟨j, hj, hi⟩ := alookup_enumFrom_inv intr 0 i p hl
    refine ⟨{ proto := p, hir := none }, ?_, rfl⟩
    rw [(hentry i _)]
    exact ⟨by rw [hi]; simpa using hj, rfl⟩
  · intro f i hl
    simp only [DTB.new] at hl
    simp [alookup] at hl
  · intro i e he
    obtain ⟨hp, hh⟩ := (hentry i e).mp he
    refine ⟨fun _ => getElem?_some_mem intr i e.proto hp, ?_⟩
    intro f hf
    rw [hh] at hf
    exact Option.noConfusion hf

/-- Each collect_fn_def step preserves well-formedness, provided user
prototypes are mutually distinct and distinct from every intrinsic
prototype (in the real system user prototypes carry the unique function
name of the file and intrinsic prototypes use runtime pointer types not
expressible in the surface language). -/
theorem collectFnDef_wf (db : HirDb) (intr : List FunctionPrototype)
    (hinj : ∀ g₁ g₂, protoOf db g₁ = protoOf db g₂ → g₁ = g₂)
    (hni : ∀ g, protoOf db g ∉ intr)
    (b : DTB) (f : Nat) (hwf : DTWf db intr b) :
    DTWf db intr (DTB.collectFnDef db b f) := by
  obtain ⟨⟨hfwd, hpinv, hfinv⟩, hprov⟩ := hwf
  by_cases hmem : f ∈ b.funcToIdx.map Prod.fst
  · rw [collectFnDef_mem db b f hmem]
    exact ⟨⟨hfwd, hpinv, hfinv⟩, hprov⟩
  · rw [collectFnDef_not_mem db b f hmem]
    have hfl : alookup f b.funcToIdx = none := (alookup_none_iff f b.funcToIdx).mpr hmem
    -- the new prototype is absent from the old prototype map
    have hpabs : ∀ (i : Nat) (e : DispatchEntry), b.entries[i]? = some e →
        e.proto ≠ protoOf db f := by
      intro i e he hpe
      obtain ⟨hnone, hsome⟩ := hprov i e he
      rcases hh : e.hir with _ | g
      · exact hni f (hpe ▸ hnone hh)
      · have : protoOf db g = protoOf db f := (hsome g hh) ▸ hpe
        have hgf : g = f := hinj g f this
        have := (hfwd i e he).2 g hh
        rw [hgf, hfl] at this
        exact Option.noConfusion this
    refine ⟨⟨?_, ?_, ?_⟩, ?_⟩
    · intro i e he
      simp only at he ⊢
      by_cases hi : i < b.entries.length
      · rw [getElem?_append_l _ _ i hi] at he
        have hne : e.proto ≠ protoOf db f := hpabs i e he
        refine ⟨?_, ?_⟩
        · rw [alookup_ainsert_ne _ _ _ _ hne]
          exact (hfwd i e he).1
        · intro g hg
          have hne₂ : g ≠ f := by
            intro hgf
            have := (hfwd i e he).2 g hg
            rw [hgf, hfl] at this
            exact Option.noConfusion this
          rw [alookup_ainsert_ne _ _ _ _ hne₂]
          exact (hfwd i e he).2 g hg
      · have hle : b.entries.length ≤ i := Nat.le_of_not_lt hi
        have hlt : i < b.entries.length + 1 := by
          have := getElem?_some_lt _ i e he
          simpa using this
        have hie : i = b.entries.length := by omega
        subst hie
        rw [getElem?_concat_self] at he
        have he₂ := Option.some.inj he
        rw [← he₂]
        refine ⟨alookup_ainsert_self _ _ _, ?_⟩
        intro g hg
        have hgf : f = g := by simpa using hg
        rw [← hgf]
        exact alookup_ainsert_self _ _ _
    · intro p i hl
      simp only at hl ⊢
      by_cases hp : p = protoOf db f
      · subst hp
        rw [alookup_ainsert_self] at hl
        have hil := Option.some.inj hl
        refine ⟨{ proto := protoOf db f, hir := some f }, ?_, rfl⟩
        rw [← hil]
        exact getElem?_concat_self _ _
      · rw [alookup_ainsert_ne _ _ _ _ hp] at hl
        obtain ⟨e, he, hep⟩ := hpinv p i hl
        refine ⟨e, ?_, hep⟩
        rw [getElem?_append_l _ _ i (getElem?_some_lt _ i e he)]
        exact he
    · intro g i hl
      simp only at hl ⊢
      by_cases hg : g = f
      · subst hg
        rw [alookup_ainsert_self] at hl
        have hil := Option.some.inj hl
        refine ⟨{ proto := protoOf db g, hir := some g }, ?_, rfl⟩
        rw [← hil]
        exact getElem?_concat_self _ _
      · rw [alookup_ainsert_ne _ _ _ _ hg] at hl
        obtain ⟨e, he, heh⟩ := hfinv g i hl
        refine ⟨e, ?_, heh⟩
        rw [getElem?_append_l _ _ i (getElem?_some_lt _ i e he)]
        exact he
    · intro i e he
      simp only at he
      by_cases hi : i < b.entries.length
      · rw [getElem?_append_l _ _ i hi] at he
        exact hprov i e he
      · have hlt : i < b.entries.length + 1 := by
          have := getElem?_some_lt _ i e he
          simpa using this
        have hie : i = b.entries.length := by omega
        subst hie
        rw [getElem?_concat_self] at he
        have he₂ := Option.some.inj he
        rw [← he₂]
        refine ⟨?_, ?_⟩
        · intro hn
          exact Option.noConfusion hn
        · intro g hg
          have hfg : f = g := by simpa using hg
          rw [← hfg]

/-- C10: the index-consistency invariant of the dispatch table holds
after seeding, is preserved by every collect step (collect_fn_def,
collect_expr, collect_body), and carries over to the built table: each
entry's prototype and originating function map to its own slot, every
stored index points below the number of entries at a matching entry, and
consequently whenever contains(function) holds the lookup succeeds and
returns that entry's slot. The distinctness hypotheses reflect the real
system: user prototypes carry the file-unique function name, and
intrinsic prototypes mention runtime pointer types that no surface
signature can equal. -/
theorem dispatch_index_consistency (db : HirDb) (intr : List FunctionPrototype)
    (hnd : intr.Nodup)
    (hinj : ∀ g₁ g₂, protoOf db g₁ = protoOf db g₂ → g₁ = g₂)
    (hni : ∀ g, protoOf db g ∉ intr) :
    DTWf db intr (DTB.new intr)
    ∧ (∀ b f, DTWf db intr b → DTWf db intr (DTB.collectFnDef db b f))
    ∧ (∀ b e, DTWf db intr b → DTWf db intr (DTB.collectExpr db b e))
    ∧ (∀ b f, DTWf db intr b → DTWf db intr (DTB.collectBody db b f))
    ∧ (∀ b, DTWf db intr b →
        ∀ f, (DTB.build db b).containsFn f = true →
          ∃ i e, alookup f (DTB.build db b).funcToIdx = some i
            ∧ (DTB.build db b).entries[i]? = some e ∧ e.hir = some f) := by
  have hstep : ∀ b f, DTWf db intr b → DTWf db intr (DTB.collectFnDef db b f) :=
    fun b f hb => collectFnDef_wf db intr hinj hni b f hb
  have hexpr : ∀ b e, DTWf db intr b → DTWf db intr (DTB.collectExpr db b e) := by
    intro b e hb
    rw [collectExpr_eq_fold]
    exact foldl_invariant (DTWf db intr) (DTB.collectFnDef db) (callsE e) b hb hstep
  refine ⟨new_wf db intr hnd, hstep, hexpr, ?_, ?_⟩
  · intro b f hb
    exact hexpr b (db.funcBody f) hb
  · intro b hb f hc
    unfold DispatchTable.containsFn DTB.build at hc
    simp only at hc
    obtain ⟨i, hi⟩ := Option.isSome_iff_exists.mp hc
    obtain ⟨e, he, heh⟩ := hb.1.2.2 f i hi
    exact ⟨i, e, hi, he, heh⟩

/-- Example database with injective prototypes: every function has the
distinct parameter type iN, function 0 is exposed and calls function 1. -/
def dbInj : HirDb :=
  { funcName := fun _ => "fn",
    funcExternal := fun _ => false,
    funcPrivate := fun _ => false,
    funcSig := fun f => { params := [Ty.int true f], ret := none },
    funcBody := fun f => if f = 0 then .call (.function 1) .nil else .lit,
    structName := fun _ => "",
    structKind := fun _ => .value,
    structFields := fun _ => [],
    structSizeAlign := fun _ => (0, 0),
    defs := [.function 0, .function 1] }

theorem dbInj_protoOf_inj : ∀ g₁ g₂, protoOf dbInj g₁ = protoOf dbInj g₂ → g₁ = g₂ := by
  intro g₁ g₂ h
  have h₂ := congrArg FunctionPrototype.argTypes h
  simp only [protoOf, dbInj, typeInfo, List.map_cons, List.map_nil, List.cons.injEq,
    TypeInfo.mk.injEq, and_true] at h₂
  exact h₂.2.1

theorem dbInj_protoOf_notin : ∀ g, protoOf dbInj g ∉ [newProto] := by
  intro g h
  rw [List.mem_singleton] at h
  have h₂ := congrArg FunctionPrototype.argTypes h
  simp [protoOf, dbInj, newProto] at h₂

/-- C10 witness: the invariant machinery applied at a concrete database
and intrinsics map. -/
theorem dispatch_index_consistency_witness :
    List.Nodup [newProto] ∧ DTWf dbInj [newProto] (DTB.new [newProto]) :=
  ⟨by simp,
    (dispatch_index_consistency dbInj [newProto] (by simp) dbInj_protoOf_inj
      dbInj_protoOf_notin).1⟩

/-!
Struct layout cache: CodegenContext::struct_ty (context.rs),
gen_struct_decl (ir/adt.rs) and the field conversion of
TypeManager::type_ir (ir/ty.rs), over an explicit LLVM-context state
whose native struct handles are allocation ids.
-/

/-- Native (LLVM) basic type used for struct fields: integers, floats,
a double pointer indirection to a struct handle, or the struct handle
itself inline. -/
inductive NTy where
  | iN (bits : Nat)
  | fN (bits : Nat)
  | ptrPtr (h : Nat)
  | structRef (h : Nat)
deriving DecidableEq, Repr

/-- Explicit LLVM-context state: the struct cache of context.rs (struct
to stored field-type list and native handle), the allocation counter for
fresh handles, the name tag of every created opaque struct type, and the
field bodies installed by set_body. A handle is opaque while it has no
body. -/
structure LCtx where
  structCache : List (Nat × (List Ty × Nat))
  next : Nat
  tags : List (Nat × String)
  bodies : List (Nat × List NTy)
deriving Repr

/-- Context::opaque_struct_type: allocate a fresh opaque struct handle
tagged with the given name. -/
def opaqueStructType (name : String) (c : LCtx) : Nat × LCtx :=
  (c.next, { c with next := c.next + 1, tags := ainsert c.next name c.tags })

/-- CodegenContext::struct_ty (context.rs): re-read the struct's current
field types from the database; on a cache hit with an equal stored
field-type list return the cached handle unchanged, otherwise (hit with
different list, or miss) allocate a new opaque handle under the struct's
name and store it with the current field-type list. -/
def structTy (db : HirDb) (c : LCtx) (s : Nat) : Nat × LCtx :=
  let name := db.structName s
  let fieldTys := (db.structFields s).map Prod.snd
  match alookup s c.structCache with
  | some stored =>
    if stored.1 = fieldTys then (stored.2, c)
    else
      let r := opaqueStructType name c
      (r.1, { r.2 with structCache := ainsert s (fieldTys, r.1) r.2.structCache })
  | none =>
    let r := opaqueStructType name c
    (r.1, { r.2 with structCache := ainsert s (fieldTys, r.1) r.2.structCache })

/-- Field conversion of TypeManager::type_ir (ir/ty.rs) restricted to the
value types: bool and integers become native integers, floats native
floats; a struct resolves through the struct cache and is represented by
a double pointer indirection when GC-kind (or Value-kind under
marshalling), and inline otherwise. -/
def typeIr (db : HirDb) (marshal : Bool) (c : LCtx) : Ty → NTy × LCtx
  | .bool => (.iN 1, c)
  | .int _ bits => (.iN bits, c)
  | .float bits => (.fN bits, c)
  | .structTy s =>
    let r := structTy db c s
    match db.structKind s with
    | .gc => (.ptrPtr r.1, r.2)
    | .value => if marshal then (.ptrPtr r.1, r.2) else (.structRef r.1, r.2)

/-- StructType::set_body: install the field body of a handle. -/
def setBody (h : Nat) (body : List NTy) (c : LCtx) : LCtx :=
  { c with bodies := ainsert h body c.bodies }

/-- StructType::is_opaque: a handle with no installed body. -/
def isOpaque (c : LCtx) (h : Nat) : Bool :=
  (alookup h c.bodies).isNone

/-- gen_struct_decl (ir/adt.rs): obtain the struct's handle through the
cache and, if it is still opaque, convert every semantic field type and
install the body. -/
def genStructDecl (db : HirDb) (c : LCtx) (s : Nat) : Nat × LCtx :=
  let r := structTy db c s
  if isOpaque r.2 r.1 then
    let conv := (db.structFields s).foldl
      (fun acc fld =>
        let t := typeIr db false acc.2 fld.2
        (acc.1 ++ [t.1], t.2))
      (([] : List NTy), r.2)
    (r.1, setBody r.1 conv.1 conv.2)
  else r

/-- Allocation invariant of the context state: every cached handle and
every handle with a body was allocated below the counter. -/
def LCtxInv (c : LCtx) : Prop :=
  (∀ s fl h, alookup s c.structCache = some (fl, h) → h < c.next)
  ∧ (∀ h body, alookup h c.bodies = some body → h < c.next)

theorem structTy_state (db : HirDb) (c : LCtx) (s : Nat) :
    c.next ≤ (structTy db c s).2.next
    ∧ (structTy db c s).2.bodies = c.bodies
    ∧ (∀ k, k < c.next → alookup k (structTy db c s).2.tags = alookup k c.tags) := by
  unfold structTy opaqueStructType
  rcases h : alookup s c.structCache with _ | stored
  · refine ⟨by simp, by simp, ?_⟩
    intro k hk
    simp only
    exact alookup_ainsert_ne _ _ _ _ (by omega)
  · by_cases he : stored.1 = (db.structFields s).map Prod.snd
    · simp [he]
    · refine ⟨by simp [he], by simp [he], ?_⟩
      intro k hk
      simp only [he, if_neg, not_false_iff]
      exact alookup_ainsert_ne _ _ _ _ (by omega)

theorem typeIr_state (db : HirDb) (m : Bool) (c : LCtx) (ty : Ty) :
    c.next ≤ (typeIr db m c ty).2.next
    ∧ (typeIr db m c ty).2.bodies = c.bodies
    ∧ (∀ k, k < c.next → alookup k (typeIr db m c ty).2.tags = alookup k c.tags) := by
  cases ty with
  | bool => exact ⟨Nat.le_refl _, rfl, fun _ _ => rfl⟩
  | int s b => exact ⟨Nat.le_refl _, rfl, fun _ _ => rfl⟩
  | float b => exact ⟨Nat.le_refl _, rfl, fun _ _ => rfl⟩
  | structTy s =>
    have h := structTy_state db c s
    unfold typeIr
    rcases hk : db.structKind s with _ | _
    · by_cases hm : m <;> simp [hk, hm, h.1, h.2.1] <;> exact h.2.2
    · simp [hk, h.1, h.2.1]
      exact h.2.2

theorem foldFields_state (db : HirDb) (flds : List (String × Ty)) (acc : List NTy) (c : LCtx) :
    (flds.foldl (fun acc fld => let t := typeIr db false acc.2 fld.2; (acc.1 ++ [t.1], t.2))
        (acc, c)).1.length = acc.length + flds.length
    ∧ c.next ≤ (flds.foldl (fun acc fld => let t := typeIr db false acc.2 fld.2;
        (acc.1 ++ [t.1], t.2)) (acc, c)).2.next
    ∧ (flds.foldl (fun acc fld => let t := typeIr db false acc.2 fld.2;
        (acc.1 ++ [t.1], t.2)) (acc, c)).2.bodies = c.bodies
    ∧ ∀ k, k < c.next →
        alookup k (flds.foldl (fun acc fld => let t := typeIr db false acc.2 fld.2;
          (acc.1 ++ [t.1], t.2)) (acc, c)).2.tags = alookup k c.tags := by
  induction flds generalizing acc c with
  | nil => exact ⟨by simp, Nat.le_refl _, rfl, fun _ _ => rfl⟩
  | cons fld rest ih =>
    have ht := typeIr_state db false c fld.2
    obtain ⟨ih1, ih2, ih3, ih4⟩ := ih (acc ++ [(typeIr db false c fld.2).1])
      (typeIr db false c fld.2).2
    refine ⟨?_, ?_, ?_, ?_⟩
    · simp only [List.foldl_cons]
      rw [ih1]
      simp
      omega
    · simp only [List.foldl_cons]
      exact Nat.le_trans ht.1 ih2
    · simp only [List.foldl_cons]
      rw [ih3, ht.2.1]
    · intro k hk
      simp only [List.foldl_cons]
      rw [ih4 k (Nat.lt_of_lt_of_le hk ht.1), ht.2.2 k hk]

/-- State produced by a struct-cache miss or mismatch: a fresh opaque
handle tagged with the struct's name, stored with the current field
types. -/
def allocStruct (db : HirDb) (c : LCtx) (s : Nat) : LCtx :=
  { structCache := ainsert s ((db.structFields s).map Prod.snd, c.next) c.structCache,
    next := c.next + 1,
    tags := ainsert c.next (db.structName s) c.tags,
    bodies := c.bodies }

theorem structTy_hit (db : HirDb) (c : LCtx) (s : Nat) (fl : List Ty) (h : Nat)
    (hc : alookup s c.structCache = some (fl, h))
    (he : fl = (db.structFields s).map Prod.snd) :
    structTy db c s = (h, c) := by
  unfold structTy
  rw [hc]
  simp [he]

theorem structTy_miss (db : HirDb) (c : LCtx) (s : Nat) (fl : List Ty) (h : Nat)
    (hc : alookup s c.structCache = some (fl, h))
    (hne : fl ≠ (db.structFields s).map Prod.snd) :
    structTy db c s = (c.next, allocStruct db c s) := by
  unfold structTy opaqueStructType allocStruct
  rw [hc]
  simp [hne]

theorem structTy_vacant (db : HirDb) (c : LCtx) (s : Nat)
    (hc : alookup s c.structCache = none) :
    structTy db c s = (c.next, allocStruct db c s) := by
  unfold structTy opaqueStructType allocStruct
  rw [hc]

theorem structTy_cache_after (db : HirDb) (c : LCtx) (s : Nat) :
    alookup s (structTy db c s).2.structCache
      = some ((db.structFields s).map Prod.snd, (structTy db c s).1) := by
  rcases h : alookup s c.structCache with _ | stored
  · rw [structTy_vacant db c s h]
    simp [allocStruct, alookup_ainsert_self]
  · by_cases he : stored.1 = (db.structFields s).map Prod.snd
    · rw [structTy_hit db c s stored.1 stored.2 (by rw [h]) he]
      simp only
      rw [h, ← he]
    · rw [structTy_miss db c s stored.1 stored.2 (by rw [h]) he]
      simp [allocStruct, alookup_ainsert_self]

/-- C4: within one compilation context, re-querying a struct's layout
with an unchanged field-type list (re-read from the database) returns
the very same native handle and leaves the context untouched
(reference identity, modelled by allocation ids); a changed field-type
list makes the query allocate a brand-new opaque handle under the same
struct name and replace the cache entry's stored field list and handle. -/
theorem struct_cache_reference_stability (db db2 : HirDb) (c : LCtx) (s : Nat)
    (hinv : LCtxInv c) :
    ((db2.structFields s).map Prod.snd = (db.structFields s).map Prod.snd →
      structTy db2 (structTy db c s).2 s = structTy db c s)
    ∧ (∀ stored h₀, alookup s c.structCache = some (stored, h₀) →
        (db2.structFields s).map Prod.snd ≠ stored →
        (structTy db2 c s).1 = c.next
        ∧ (structTy db2 c s).1 ≠ h₀
        ∧ alookup (structTy db2 c s).1 (structTy db2 c s).2.tags = some (db2.structName s)
        ∧ alookup s (structTy db2 c s).2.structCache
            = some ((db2.structFields s).map Prod.snd, (structTy db2 c s).1)
        ∧ alookup (structTy db2 c s).1 (structTy db2 c s).2.bodies = none) := by
  constructor
  · intro heq
    have hc := structTy_cache_after db c s
    have := structTy_hit db2 (structTy db c s).2 s ((db.structFields s).map Prod.snd)
      (structTy db c s).1 hc heq.symm
    rw [this]
  · intro stored h₀ hc hne
    have hmiss := structTy_miss db2 c s stored h₀ hc (fun hx => hne hx.symm)
    have hlt : h₀ < c.next := hinv.1 s stored h₀ hc
    rw [hmiss]
    refine ⟨rfl, by omega, ?_, ?_, ?_⟩
    · simp [allocStruct, alookup_ainsert_self]
    · simp [allocStruct, alookup_ainsert_self]
    · simp only [allocStruct]
      rcases hb : alookup c.next c.bodies with _ | body
      · rfl
      · exact absurd (hinv.2 c.next body hb) (by omega)

/-- Empty LLVM-context state. -/
def lctx0 : LCtx :=
  { structCache := [], next := 0, tags := [], bodies := [] }

theorem lctx0_inv : LCtxInv lctx0 := by
  constructor
  · intro s fl h hl
    simp [lctx0, alookup] at hl
  · intro h body hl
    simp [lctx0, alookup] at hl

/-- Example database with structs: struct 0 is Bar, a Value struct with
one f64 field; struct 1 is Baz, a Value struct whose field has type Bar;
function 0 (main) is public, non-extern, takes a Bar and returns an i32. -/
def dbBar : HirDb :=
  { funcName := fun _ => "main",
    funcExternal := fun _ => false,
    funcPrivate := fun _ => false,
    funcSig := fun _ => { params := [Ty.structTy 0], ret := some (Ty.int true 32) },
    funcBody := fun _ => .lit,
    structName := fun s => if s = 0 then "Bar" else "Baz",
    structKind := fun _ => .value,
    structFields := fun s => if s = 0 then [("m", Ty.float 64)] else [("b", Ty.structTy 0)],
    structSizeAlign := fun _ => (64, 64),
    defs := [.function 0, .structDef 0, .structDef 1] }

/-- C4 witness: querying Bar's layout twice in a row from the empty
context returns the identical handle and context. -/
theorem struct_cache_reference_stability_witness :
    LCtxInv lctx0 ∧ structTy dbBar (structTy dbBar lctx0 0).2 0 = structTy dbBar lctx0 0 :=
  ⟨lctx0_inv, (struct_cache_reference_stability dbBar dbBar lctx0 0 lctx0_inv).1 rfl⟩

/-- C8: the first struct-layout query for a struct in a compilation
context creates a fresh opaque handle tagged with the struct's name and
immediately populates it: when gen_struct_decl returns, the handle has a
body with exactly one native field type per semantic field. -/
theorem struct_layout_first_query_populates (db : HirDb) (c : LCtx) (s : Nat)
    (hinv : LCtxInv c) (hfirst : alookup s c.structCache = none) :
    (genStructDecl db c s).1 = c.next
    ∧ alookup (genStructDecl db c s).1 (genStructDecl db c s).2.tags
        = some (db.structName s)
    ∧ ∃ ntys, alookup (genStructDecl db c s).1 (genStructDecl db c s).2.bodies = some ntys
        ∧ ntys.length = (db.structFields s).length := by
  have hvac := structTy_vacant db c s hfirst
  have hbody : alookup c.next (allocStruct db c s).bodies = none := by
    simp only [allocStruct]
    rcases hb : alookup c.next c.bodies with _ | body
    · rfl
    · exact absurd (hinv.2 c.next body hb) (by omega)
  have hop : isOpaque (allocStruct db c s) c.next = true := by
    simp [isOpaque, hbody]
  have hfold := foldFields_state db (db.structFields s) [] (allocStruct db c s)
  unfold genStructDecl
  rw [hvac]
  rw [if_pos hop]
  refine ⟨rfl, ?_, ?_⟩
  · simp only [setBody]
    have hnext : c.next < (allocStruct db c s).next := by
      simp [allocStruct]
    rw [hfold.2.2.2 c.next hnext]
    simp [allocStruct, alookup_ainsert_self]
  · refine ⟨((db.structFields s).foldl
      (fun acc fld => let t := typeIr db false acc.2 fld.2; (acc.1 ++ [t.1], t.2))
      (([] : List NTy), allocStruct db c s)).1, ?_, ?_⟩
    · simp only [setBody]
      exact alookup_ainsert_self _ _ _
    · rw [hfold.1]
      simp

/-- C8 witness: the first layout query for Bar from the empty context
returns handle 0, tagged Bar, populated with one field. -/
theorem struct_layout_first_query_populates_witness :
    LCtxInv lctx0 ∧ alookup 0 lctx0.structCache = none
    ∧ (genStructDecl dbBar lctx0 0).1 = lctx0.next :=
  ⟨lctx0_inv, rfl,
    (struct_layout_first_query_populates dbBar lctx0 0 lctx0_inv rfl).1⟩

/-!
Type table builder (ir/type_table.rs): the BTreeSet of collected
TypeInfos modelled as a sorted duplicate-free list; the recursive
collection walks carry explicit fuel, with none modelling a recursion
that never bottoms out.
-/

/-- TypeTableBuilder state: the ordered entry set (a BTreeSet in the
source, guaranteeing deterministically ordered output). -/
structure TTState where
  entries : List TypeInfo
deriving DecidableEq, Repr

/-- BTreeSet::insert keyed by TypeInfo identity (structural equality):
already-present values are kept, new values enter at their ordered
position. -/
def insertTI (ti : TypeInfo) (st : TTState) : TTState :=
  if ti ∈ st.entries then st else { entries := List.orderedInsert (· ≤ ·) ti st.entries }

/-- TypeTableBuilder::collect_struct with explicit recursion fuel (none
models a recursion that never bottoms out): insert the struct's own
TypeInfo, then run collect_type on every field's TypeInfo — a
struct-group field recurses back into collect_struct with no visited
check, everything else is inserted into the entry set. -/
def collectStructF (db : HirDb) : Nat → TTState → Nat → Option TTState
  | 0, _, _ => none
  | n + 1, st, s =>
    ((db.structFields s).map (fun fld => typeInfo db fld.2)).foldlM
      (fun st2 ti =>
        match ti.group with
        | .structGroup s2 => collectStructF db n st2 s2
        | .fundamental => some (insertTI ti st2))
      (insertTI (typeInfo db (.structTy s)) st)

/-- TypeTableBuilder::collect_type: a struct-group TypeInfo recurses into
collect_struct, everything else is inserted into the entry set. -/
def collectTypeF (db : HirDb) (fuel : Nat) (st : TTState) (ti : TypeInfo) : Option TTState :=
  match fuel with
  | 0 => none
  | n + 1 =>
    match ti.group with
    | .structGroup s => collectStructF db n st s
    | .fundamental => some (insertTI ti st)

/-- Sequential collect_type over a list of TypeInfos (the field loop of
collect_struct and the parameter/return loops of collect_fn and of the
intrinsics seeding). -/
def collectTypeListF (db : HirDb) (fuel : Nat) (st : TTState) (tis : List TypeInfo) :
    Option TTState :=
  tis.foldlM (fun st2 ti => collectTypeF db fuel st2 ti) st

/-- TypeTableBuilder::collect_fn: for a function that is exposed or
reachable through the dispatch table, collect the parameter and return
TypeInfos; the body walk of collect_expr collects nothing (its only
content is the recursion into children). -/
def collectFnT (db : HirDb) (dt : DispatchTable) (fuel : Nat) (st : TTState) (f : Nat) :
    Option TTState :=
  if !(db.funcPrivate f) || dt.containsFn f then
    collectTypeListF db fuel st
      ((db.funcSig f).params.map (typeInfo db)
        ++ ((db.funcSig f).ret.map (typeInfo db)).toList)
  else some st

/-- Type-table entry list of a file group: TypeTableBuilder::new seeds
from every intrinsic prototype's argument and return types, the
collection loop of ir_query (file_group.rs) walks every struct and
function definition, and build emits the ordered entry set. -/
def typeTableEntriesF (db : HirDb) (fuel : Nat) : Option (List TypeInfo) :=
  match (intrinsicsList db).foldlM
      (fun st p => collectTypeListF db fuel st (p.argTypes ++ p.retType.toList))
      ({ entries := [] } : TTState) with
  | none => none
  | some st0 =>
    match db.defs.foldlM
        (fun st d =>
          match d with
          | ModuleDef.structDef s => collectStructF db fuel st s
          | ModuleDef.function f => collectFnT db (dispatchTableOf db) fuel st f
          | ModuleDef.builtin => some st)
        st0 with
    | none => none
    | some st => some st.entries

/-- Sorted duplicate-free invariant of the entry set. -/
def TTok (st : TTState) : Prop :=
  st.entries.Sorted (· ≤ ·) ∧ st.entries.Nodup

theorem insertTI_ok (ti : TypeInfo) (st : TTState) (h : TTok st) : TTok (insertTI ti st) := by
  unfold insertTI
  by_cases hm : ti ∈ st.entries
  · simpa [hm] using h
  · rw [if_neg hm]
    refine ⟨h.1.orderedInsert ti st.entries, ?_⟩
    rw [(List.perm_orderedInsert _ ti st.entries).nodup_iff]
    simp [h.2, hm]

theorem foldlM_opt_invariant {α β : Type} (P : α → Prop) (step : α → β → Option α)
    (hstep : ∀ a b a2, P a → step a b = some a2 → P a2) :
    ∀ (l : List β) (a a2 : α), P a → l.foldlM step a = some a2 → P a2 := by
  intro l
  induction l with
  | nil =>
    intro a a2 ha h
    rw [← Option.some.inj h]
    exact ha
  | cons x xs ih =>
    intro a a2 ha h
    simp only [List.foldlM_cons] at h
    rcases hs : step a x with _ | a1
    · rw [hs] at h
      exact Option.noConfusion h
    · rw [hs] at h
      exact ih a1 a2 (hstep a x a1 ha hs) h

theorem collectStructF_ok (db : HirDb) : ∀ (fuel : Nat) (st : TTState) (s : Nat)
    (st2 : TTState), TTok st → collectStructF db fuel st s = some st2 → TTok st2 := by
  intro fuel
  induction fuel with
  | zero =>
    intro st s st2 hok h
    simp only [collectStructF] at h
    exact Option.noConfusion h
  | succ n ih =>
    intro st s st2 hok h
    simp only [collectStructF] at h
    refine foldlM_opt_invariant TTok _ ?_ _ _ st2 (insertTI_ok _ st hok) h
    intro a ti a2 ha hs
    rcases hg : ti.group with _ | s2
    · rw [hg] at hs
      rw [← Option.some.inj hs]
      exact insertTI_ok ti a ha
    · rw [hg] at hs
      exact ih a s2 a2 ha hs

theorem collect_preserves_ok (db : HirDb) : ∀ fuel : Nat,
    (∀ st ti st2, TTok st → collectTypeF db fuel st ti = some st2 → TTok st2)
    ∧ (∀ st s st2, TTok st → collectStructF db fuel st s = some st2 → TTok st2)
    ∧ (∀ tis st st2, TTok st → collectTypeListF db fuel st tis = some st2 → TTok st2) := by
  intro fuel
  have hT : ∀ st ti st2, TTok st → collectTypeF db fuel st ti = some st2 → TTok st2 := by
    intro st ti st2 hok h
    simp only [collectTypeF] at h
    match fuel, h with
    | 0, h => exact Option.noConfusion h
    | n + 1, h =>
      rcases hg : ti.group with _ | s2
      · rw [hg] at h
        rw [← Option.some.inj h]
        exact insertTI_ok ti st hok
      · rw [hg] at h
        exact collectStructF_ok db n st s2 st2 hok h
  refine ⟨hT, fun st s st2 hok h => collectStructF_ok db fuel st s st2 hok h, ?_⟩
  intro tis st st2 hok h
  simp only [collectTypeListF] at h
  exact foldlM_opt_invariant TTok _ (fun a b a2 ha hs => hT a b a2 ha hs) tis st st2 hok h


/-- C6: whenever the type-table collection succeeds, the built entry list
contains every TypeInfo at most once and is emitted in the deterministic
sorted order of TypeInfo identity; in particular a struct collected both
as a function parameter type and as another struct's field type occupies
exactly one entry. -/
theorem type_table_sorted_dedup (db : HirDb) (fuel : Nat) (entries : List TypeInfo)
    (h : typeTableEntriesF db fuel = some entries) :
    entries.Sorted (· ≤ ·) ∧ ∀ ti, entries.count ti ≤ 1 := by
  obtain ⟨hT, hS, hL⟩ := collect_preserves_ok db fuel
  unfold typeTableEntriesF at h
  rcases h0 : (intrinsicsList db).foldlM
      (fun st p => collectTypeListF db fuel st (p.argTypes ++ p.retType.toList))
      ({ entries := [] } : TTState) with _ | st0
  · rw [h0] at h
    exact Option.noConfusion h
  · rw [h0] at h
    replace h : (match db.defs.foldlM
        (fun st d =>
          match d with
          | ModuleDef.structDef s => collectStructF db fuel st s
          | ModuleDef.function f => collectFnT db (dispatchTableOf db) fuel st f
          | ModuleDef.builtin => some st)
        st0 with
      | none => none
      | some st => some st.entries) = some entries := h
    have hok0 : TTok st0 := by
      refine foldlM_opt_invariant TTok _ ?_ (intrinsicsList db) { entries := [] } st0
        ⟨List.sorted_nil, List.nodup_nil⟩ h0
      intro a b a2 ha hs
      exact hL _ a a2 ha hs
    rcases h1 : db.defs.foldlM
        (fun st d =>
          match d with
          | ModuleDef.structDef s => collectStructF db fuel st s
          | ModuleDef.function f => collectFnT db (dispatchTableOf db) fuel st f
          | ModuleDef.builtin => some st)
        st0 with _ | st1
    · rw [h1] at h
      exact Option.noConfusion h
    · rw [h1] at h
      have hok1 : TTok st1 := by
        refine foldlM_opt_invariant TTok _ ?_ db.defs st0 st1 hok0 h1
        intro a d a2 ha hs
        cases d with
        | structDef s => exact hS a s a2 ha hs
        | function f =>
          replace hs : collectFnT db (dispatchTableOf db) fuel a f = some a2 := hs
          unfold collectFnT at hs
          by_cases hc : !(db.funcPrivate f) || (dispatchTableOf db).containsFn f
          · rw [if_pos hc] at hs
            exact hL _ a a2 ha hs
          · rw [if_neg hc] at hs
            rw [← Option.some.inj hs]
            exact ha
        | builtin =>
          rw [← Option.some.inj hs]
          exact ha
      have he : entries = st1.entries := (Option.some.inj h).symm
      rw [he]
      exact ⟨hok1.1, fun ti => List.nodup_iff_count_le_one.mp hok1.2 ti⟩

/-- Example database with a self-referential GC struct: struct 0 is Foo,
GC kind, whose single field next has type Foo itself (legal for GC
structs, which resolve to a pointer indirection in the layout engine). -/
def dbCyc : HirDb :=
  { funcName := fun _ => "f",
    funcExternal := fun _ => false,
    funcPrivate := fun _ => false,
    funcSig := fun _ => { params := [], ret := none },
    funcBody := fun _ => .lit,
    structName := fun _ => "Foo",
    structKind := fun _ => .gc,
    structFields := fun _ => [("next", Ty.structTy 0)],
    structSizeAlign := fun _ => (64, 64),
    defs := [.structDef 0] }

theorem collectStructF_cyc (fuel : Nat) :
    ∀ st, collectStructF dbCyc fuel st 0 = none := by
  induction fuel with
  | zero =>
    intro st
    simp [collectStructF]
  | succ n ih =>
    intro st
    simp only [collectStructF]
    have hflds : (dbCyc.structFields 0).map (fun fld => typeInfo dbCyc fld.2)
        = [typeInfo dbCyc (Ty.structTy 0)] := rfl
    rw [hflds]
    simp only [List.foldlM_cons, List.foldlM_nil]
    have hg : (typeInfo dbCyc (Ty.structTy 0)).group = TypeGroup.structGroup 0 := rfl
    rw [hg]
    show (collectStructF dbCyc n (insertTI (typeInfo dbCyc (Ty.structTy 0)) st) 0
        >>= fun a => pure a) = none
    rw [ih (insertTI (typeInfo dbCyc (Ty.structTy 0)) st)]
    rfl

/-- C5: collecting the self-referential GC struct Foo into the type table
never terminates — collect_struct recurses through the field's TypeInfo
back into collect_struct with no visited check, so no recursion depth
suffices (every fuel bound is exhausted), and the whole type-table
construction of the file group diverges instead of yielding one
descriptor per distinct TypeInfo. -/
theorem type_table_cyclic_struct_diverges :
    (∀ fuel st, collectStructF dbCyc fuel st 0 = none)
    ∧ ∀ fuel, typeTableEntriesF dbCyc fuel = none := by
  constructor
  · intro fuel st
    exact collectStructF_cyc fuel st
  · intro fuel
    have hintr : intrinsicsList dbCyc = [] := rfl
    have hdefs : dbCyc.defs = [ModuleDef.structDef 0] := rfl
    have hnone := collectStructF_cyc fuel { entries := [] }
    unfold typeTableEntriesF
    rw [hintr, hdefs]
    simp [List.foldlM_cons, List.foldlM_nil, hnone]

/-- C6 witness: in dbBar the struct Bar is collected both as a parameter
type of main and as a field type of Baz, and the built entry list holds
it once, in sorted order with every other entry. -/
theorem type_table_sorted_dedup_witness :
    typeTableEntriesF dbBar 5 = some
      [{ name := "Bar", sizeBits := 64, align := 64, group := TypeGroup.structGroup 0 },
       { name := "Baz", sizeBits := 64, align := 64, group := TypeGroup.structGroup 1 },
       { name := "core::f64", sizeBits := 64, align := 64, group := TypeGroup.fundamental },
       { name := "core::i32", sizeBits := 32, align := 32, group := TypeGroup.fundamental }]
    ∧ ∀ ti : TypeInfo, List.count ti
      ([{ name := "Bar", sizeBits := 64, align := 64, group := TypeGroup.structGroup 0 },
        { name := "Baz", sizeBits := 64, align := 64, group := TypeGroup.structGroup 1 },
        { name := "core::f64", sizeBits := 64, align := 64, group := TypeGroup.fundamental },
        { name := "core::i32", sizeBits := 32, align := 32, group := TypeGroup.fundamental }]
        : List TypeInfo) ≤ 1 :=
  ⟨by decide,
    (type_table_sorted_dedup dbBar 5
      [{ name := "Bar", sizeBits := 64, align := 64, group := TypeGroup.structGroup 0 },
       { name := "Baz", sizeBits := 64, align := 64, group := TypeGroup.structGroup 1 },
       { name := "core::f64", sizeBits := 64, align := 64, group := TypeGroup.fundamental },
       { name := "core::i32", sizeBits := 32, align := 32, group := TypeGroup.fundamental }]
      (by decide)).2⟩

/-!
Wrapper generation (ir_query in file.rs): every non-extern function gets
its signature; an additional wrapper signature, whose native name is the
function's name with suffix _wrapper, is generated iff the function is
not private and its signature is not marshallable.
-/

/-- Wrapper map built by ir_query in file.rs: for every non-extern,
non-private function with a non-marshallable signature, the wrapper
entry keyed by the function holding its generated native name
(gen_signature with make_marshallable true). -/
def fileWrappers (db : HirDb) : List (Nat × String) :=
  db.defs.foldl
    (fun acc d =>
      match d with
      | ModuleDef.function f =>
        if !(db.funcExternal f) then
          if !(db.funcPrivate f) && !(marshallable db (db.funcSig f)) then
            ainsert f (genSignatureName db f true) acc
          else acc
        else acc
      | ModuleDef.structDef _ => acc
      | ModuleDef.builtin => acc)
    []

theorem ainsert_keys_of_mem {α β : Type} [DecidableEq α] (k : α) (v : β)
    (l : List (α × β)) (h : k ∈ l.map Prod.fst) :
    (ainsert k v l).map Prod.fst = l.map Prod.fst := by
  induction l with
  | nil => simp at h
  | cons kv rest ih =>
    obtain ⟨k₂, v₂⟩ := kv
    by_cases h₂ : k₂ = k
    · subst h₂
      simp [ainsert]
    · simp only [List.map_cons, List.mem_cons] at h
      rcases h with h | h
      · exact absurd h.symm h₂
      · simp [ainsert, h₂, ih h]

theorem ainsert_keys_nodup {α β : Type} [DecidableEq α] (k : α) (v : β)
    (l : List (α × β)) (h : (l.map Prod.fst).Nodup) :
    ((ainsert k v l).map Prod.fst).Nodup := by
  by_cases hm : k ∈ l.map Prod.fst
  · rw [ainsert_keys_of_mem k v l hm]
    exact h
  · rw [ainsert_keys_of_not_mem k v l hm]
    simp [List.nodup_append, h, hm]

/-- Soundness, stability and completeness of the wrapper fold. -/
theorem fileWrappers_fold (db : HirDb) (ds : List ModuleDef) (acc : List (Nat × String)) :
    (∀ g s, alookup g (ds.foldl
        (fun acc d =>
          match d with
          | ModuleDef.function f =>
            if !(db.funcExternal f) then
              if !(db.funcPrivate f) && !(marshallable db (db.funcSig f)) then
                ainsert f (genSignatureName db f true) acc
              else acc
            else acc
          | ModuleDef.structDef _ => acc
          | ModuleDef.builtin => acc)
        acc) = some s →
      alookup g acc = some s
      ∨ (s = genSignatureName db g true ∧ db.funcExternal g = false
          ∧ db.funcPrivate g = false ∧ marshallable db (db.funcSig g) = false))
    ∧ (∀ g, (alookup g acc).isSome →
        (alookup g (ds.foldl
          (fun acc d =>
            match d with
            | ModuleDef.function f =>
              if !(db.funcExternal f) then
                if !(db.funcPrivate f) && !(marshallable db (db.funcSig f)) then
                  ainsert f (genSignatureName db f true) acc
                else acc
              else acc
            | ModuleDef.structDef _ => acc
            | ModuleDef.builtin => acc)
          acc)).isSome)
    ∧ (∀ g, ModuleDef.function g ∈ ds → db.funcExternal g = false →
        db.funcPrivate g = false → marshallable db (db.funcSig g) = false →
        (alookup g (ds.foldl
          (fun acc d =>
            match d with
            | ModuleDef.function f =>
              if !(db.funcExternal f) then
                if !(db.funcPrivate f) && !(marshallable db (db.funcSig f)) then
                  ainsert f (genSignatureName db f true) acc
                else acc
              else acc
            | ModuleDef.structDef _ => acc
            | ModuleDef.builtin => acc)
          acc)).isSome)
    ∧ ((acc.map Prod.fst).Nodup →
        ((ds.foldl
          (fun acc d =>
            match d with
            | ModuleDef.function f =>
              if !(db.funcExternal f) then
                if !(db.funcPrivate f) && !(marshallable db (db.funcSig f)) then
                  ainsert f (genSignatureName db f true) acc
                else acc
              else acc
            | ModuleDef.structDef _ => acc
            | ModuleDef.builtin => acc)
          acc).map Prod.fst).Nodup) := by
  induction ds generalizing acc with
  | nil =>
    refine ⟨fun g s h => Or.inl h, fun g h => h, ?_, fun h => h⟩
    intro g hg
    simp at hg
  | cons d rest ih =>
    refine ⟨?_, ?_, ?_, ?_⟩
    · intro g s h
      rw [List.foldl_cons] at h
      rcases (ih _).1 g s h with h₂ | h₂
      · cases d with
        | function f =>
          simp only at h₂
          by_cases hx : db.funcExternal f
          · simp only [hx] at h₂
            exact Or.inl h₂
          · simp only [hx, Bool.not_false, if_pos] at h₂
            by_cases hw : !(db.funcPrivate f) && !(marshallable db (db.funcSig f))
            · rw [if_pos hw] at h₂
              by_cases hgf : g = f
              · subst hgf
                rw [alookup_ainsert_self] at h₂
                simp only [Bool.and_eq_true, Bool.not_eq_true'] at hw
                refine Or.inr ⟨(Option.some.inj h₂).symm, ?_, hw.1, hw.2⟩
                simpa using hx
              · rw [alookup_ainsert_ne _ _ _ _ hgf] at h₂
                exact Or.inl h₂
            · rw [if_neg hw] at h₂
              exact Or.inl h₂
        | structDef s2 => exact Or.inl h₂
        | builtin => exact Or.inl h₂
      · exact Or.inr h₂
    · intro g h
      rw [List.foldl_cons]
      refine (ih _).2.1 g ?_
      cases d with
      | function f =>
        simp only
        by_cases hx : db.funcExternal f
        · simpa [hx] using h
        · simp only [hx, Bool.not_false, if_pos]
          by_cases hw : !(db.funcPrivate f) && !(marshallable db (db.funcSig f))
          · rw [if_pos hw]
            by_cases hgf : g = f
            · subst hgf
              rw [alookup_ainsert_self]
              simp
            · rw [alookup_ainsert_ne _ _ _ _ hgf]
              exact h
          · rw [if_neg hw]
            exact h
      | structDef s2 => exact h
      | builtin => exact h
    · intro g hg hx hp hm
      rw [List.foldl_cons]
      rcases List.mem_cons.mp hg with rfl | hg₂
      · refine (ih _).2.1 g ?_
        simp only [hx, Bool.not_false, if_pos, hp, hm, Bool.not_false, Bool.and_self, if_pos]
        rw [alookup_ainsert_self]
        simp
      · exact (ih _).2.2.1 g hg₂ hx hp hm
    · intro hnd
      rw [List.foldl_cons]
      refine (ih _).2.2.2 ?_
      cases d with
      | function f =>
        simp only
        by_cases hx : db.funcExternal f
        · simpa [hx] using hnd
        · simp only [hx, Bool.not_false, if_pos]
          by_cases hw : !(db.funcPrivate f) && !(marshallable db (db.funcSig f))
          · rw [if_pos hw]
            exact ainsert_keys_nodup _ _ _ hnd
          · rw [if_neg hw]
            exact hnd
      | structDef s2 => exact hnd
      | builtin => exact hnd

/-- C7: for every non-extern function of the file, a wrapper — whose
native name is the function's name with suffix _wrapper (gen_signature
with make_marshallable true) — is generated iff the function is
externally visible (not private) and its signature is not trivially
marshallable; in that case its key occupies exactly one wrapper entry,
and an externally visible function whose signature uses only fundamental
(marshallable) types gets no wrapper. -/
theorem wrapper_generation_iff (db : HirDb) (f : Nat)
    (hdef : ModuleDef.function f ∈ db.defs)
    (hext : db.funcExternal f = false) :
    ((alookup f (fileWrappers db)).isSome
        ↔ (db.funcPrivate f = false ∧ marshallable db (db.funcSig f) = false))
    ∧ (∀ s, alookup f (fileWrappers db) = some s → s = db.funcName f ++ "_wrapper")
    ∧ ((fileWrappers db).map Prod.fst).count f ≤ 1 := by
  have hfold := fileWrappers_fold db db.defs []
  refine ⟨⟨?_, ?_⟩, ?_, ?_⟩
  · intro hs
    obtain ⟨s, hs₂⟩ := Option.isSome_iff_exists.mp hs
    rcases hfold.1 f s hs₂ with h | h
    · simp [alookup] at h
    · exact ⟨h.2.2.1, h.2.2.2⟩
  · intro ⟨hp, hm⟩
    exact hfold.2.2.1 f hdef hext hp hm
  · intro s hs₂
    rcases hfold.1 f s hs₂ with h | h
    · simp [alookup] at h
    · rw [h.1]
      simp [genSignatureName]
  · have hnd := hfold.2.2.2 (by simp)
    exact List.nodup_iff_count_le_one.mp hnd f

/-- C7 witness: main in dbBar is exposed, non-extern, and takes a
Value-kind struct by value, so it gets the wrapper; its wrapper entry's
name is main_wrapper. -/
theorem wrapper_generation_iff_witness :
    ModuleDef.function 0 ∈ dbBar.defs
    ∧ dbBar.funcExternal 0 = false
    ∧ (alookup 0 (fileWrappers dbBar)).isSome = true :=
  ⟨by decide, rfl, by
    have h := (wrapper_generation_iff dbBar 0 (by decide) rfl).1
    exact h.mpr ⟨rfl, by decide⟩⟩

/-- C9 witness: in dbMain the registered function 2 has slot 1 and the
lookup emits the indexed load for it. -/
theorem dispatch_lookup_total_on_registered_witness :
    alookup 2 (dispatchTableOf dbMain).funcToIdx = some 1
    ∧ (dispatchTableOf dbMain).genFunctionLookup dbMain (dispatchTableOf dbMain).hasTable 2
        = some { slot := 1, fnName := "two" } :=
  ⟨by decide, (dispatch_lookup_total_on_registered dbMain).2.1 2 1 (by decide)⟩
